import Mathlib

/-!
Verification development for the GraffitiMap wordlist toolkit core
(combination generator, mutation/fuzzing generator, deduplicator).

The Python source is shallowly embedded: Python lists become `List`,
Python dicts with known keys become structures or association lists,
Python `int` becomes `Int` (arbitrary precision in both), Python floats
(only similarity ratios and the 0.8 threshold) become `Rat`.

Python `set` iteration order is implementation defined (hash randomized
for strings); wherever the source materializes `list(set(xs))` or a set
accumulated in a loop, the embedding keeps first-insertion order.  Every
property proved or refuted below depends only on membership and
cardinality of those collections, which the model preserves exactly.
-/

namespace GraffitiMap

/-- First-occurrence deduplication keyed by `key`, carrying the set of
already seen keys.  This is the loop shape shared by `exact_duplicate`,
`case_insensitive_duplicate` and `pattern_duplicate` in
src/core/deduplicator.py, and also models `list(set(xs))`
(first-insertion order). -/
def dedupByAux [DecidableEq β] (key : α → β) (seen : List β) : List α → List α
  | [] => []
  | x :: xs =>
    if key x ∈ seen then dedupByAux key seen xs
    else x :: dedupByAux key (key x :: seen) xs

/-- Models Python `list(set(l))` with first-insertion order (membership and
cardinality agree with CPython; the order CPython produces is
hash-dependent and no claim below depends on it). -/
def setList [DecidableEq α] (l : List α) : List α := dedupByAux id [] l

/-- Accept each element unless some previously accepted element is related
to it by `p`.  This is the loop shape of `similarity_duplicate` (and
`custom_duplicate`) in src/core/deduplicator.py: `acc` is the
`unique_words` list accumulated so far. -/
def relFilterAux (p : α → α → Bool) (acc : List α) : List α → List α
  | [] => []
  | x :: xs =>
    if acc.any (p x) then relFilterAux p acc xs
    else x :: relFilterAux p (acc ++ [x]) xs

/-- Python `str.strip()` (whitespace strip on both ends; ASCII
whitespace). -/
def pyStrip (s : String) : String :=
  String.mk (((s.data.dropWhile Char.isWhitespace).reverse.dropWhile Char.isWhitespace).reverse)

/-- Python `s.strip(c)` for a single strip character `c`. -/
def pyStripChar (c : Char) (s : String) : String :=
  String.mk (((s.data.dropWhile (· = c)).reverse.dropWhile (· = c)).reverse)

/-- Python `s.lstrip(c)` for a single strip character `c`. -/
def pyLStripChar (c : Char) (s : String) : String :=
  String.mk (s.data.dropWhile (· = c))

/-- Python `s.rstrip(cs)` for a set of strip characters `cs`. -/
def pyRStripChars (cs : List Char) (s : String) : String :=
  String.mk ((s.data.reverse.dropWhile (· ∈ cs)).reverse)

/-- Python `s.split(c)` for a single separator character: split at every
occurrence, keeping empty parts; always returns at least one part. -/
def splitOnCharAux (c : Char) (cur : List Char) : List Char → List (List Char)
  | [] => [cur.reverse]
  | x :: xs =>
    if x = c then cur.reverse :: splitOnCharAux c [] xs
    else splitOnCharAux c (x :: cur) xs

def pySplitChar (c : Char) (s : String) : List String :=
  (splitOnCharAux c [] s.data).map String.mk

/-- Python substring containment `sub in s` (true at any start offset). -/
def substrContains (s sub : String) : Bool :=
  (List.range (s.data.length + 1)).any (fun i => sub.data.isPrefixOf (s.data.drop i))

/-- Python `str.isdigit()` restricted to ASCII: nonempty and all digits. -/
def pyIsDigit (s : String) : Bool :=
  s ≠ "" && s.data.all Char.isDigit

/-- Python `range(s, e + 1)` over arbitrary-precision integers. -/
def intRange (s e : Int) : List Int :=
  (List.range (e + 1 - s).toNat).map (fun n => s + Int.ofNat n)

/-- Python format specifier `0Nd` applied to an integer: zero padding to
total width `w`, the sign (if any) placed before the padding. -/
def zeroPadInt (w : Nat) (i : Int) : String :=
  let mag := toString i.natAbs
  let sign := if i < 0 then "-" else ""
  sign ++ String.mk (List.replicate (w - (mag.length + sign.length)) '0') ++ mag

/-- Python slice `s[-n:]`. -/
def strTakeRight (n : Nat) (s : String) : String :=
  String.mk (s.data.drop (s.data.length - n))

/-- Maximal nonempty runs of characters satisfying `p`, in order.  This is
`re.findall` for a pattern consisting of a character class followed by
a plus quantifier. -/
def runsOfAux (p : Char → Bool) (cur : List Char) : List Char → List String
  | [] => if cur = [] then [] else [String.mk cur.reverse]
  | c :: cs =>
    if p c then runsOfAux p (c :: cur) cs
    else if cur = [] then runsOfAux p [] cs
    else String.mk cur.reverse :: runsOfAux p [] cs

def runsOf (p : Char → Bool) (s : String) : List String := runsOfAux p [] s.data

end GraffitiMap

namespace GraffitiMap.SeqMatcher

/-!
Model of Python difflib.SequenceMatcher with `isjunk = None` (as used by
`Deduplicator._calculate_similarity`).  Floats are modelled as rationals;
`ratio` is the exact value 2 * M / T that CPython rounds to the nearest
double.  No theorem below depends on the numeric value of a ratio.
-/

/-- Positions of `c` in `b` (ascending), with the autojunk rule of
SequenceMatcher: for `len(b) >= 200`, characters occurring more than
`1 + len(b) / 100` times are dropped from the index. -/
def b2j (b : List Char) (c : Char) : List Nat :=
  if 200 ≤ b.length ∧ 1 + b.length / 100 < b.count c then []
  else (List.range b.length).filter (fun j => b.get? j = some c)

/-- One row of the longest-matching-block dynamic program: fold over the
index positions `js` of the current character `a[i]`, reading run lengths
from the previous row `old` and writing the new row.  Positions below
`blo` are skipped and positions at or beyond `bhi` end the row (the
positions list is ascending, mirroring the `break`). -/
def flmRow (blo bhi i : Nat) (old : Nat → Nat) :
    List Nat → (Nat × Nat × Nat) → (Nat → Nat) → ((Nat × Nat × Nat) × (Nat → Nat))
  | [], best, new => (best, new)
  | j :: js, best, new =>
    if j < blo then flmRow blo bhi i old js best new
    else if bhi ≤ j then (best, new)
    else
      let k := (if j = 0 then 0 else old (j - 1)) + 1
      let new' := fun j' => if j' = j then k else new j'
      let best' := if best.2.2 < k then (i - k + 1, j - k + 1, k) else best
      flmRow blo bhi i old js best' new'

/-- All rows of the dynamic program, over the indices `is` of `a`. -/
def flmRows (a b : List Char) (blo bhi : Nat) :
    List Nat → (Nat × Nat × Nat) → (Nat → Nat) → (Nat × Nat × Nat)
  | [], best, _ => best
  | i :: is, best, j2len =>
    let step := flmRow blo bhi i j2len (b2j b (a.getD i ' ')) best (fun _ => 0)
    flmRows a b blo bhi is step.1 step.2

/-- Leftward extension of the best block while the adjacent characters are
equal (the junk set is empty, so the junk conditions vanish). -/
def extendLeft (a b : List Char) (alo blo : Nat) :
    Nat → Nat → Nat → Nat → (Nat × Nat × Nat)
  | bi, bj, bs, 0 => (bi, bj, bs)
  | bi, bj, bs, fuel + 1 =>
    if alo < bi ∧ blo < bj ∧ a.get? (bi - 1) = b.get? (bj - 1) then
      extendLeft a b alo blo (bi - 1) (bj - 1) (bs + 1) fuel
    else (bi, bj, bs)

/-- Rightward extension of the best block while the following characters
are equal. -/
def extendRight (a b : List Char) (ahi bhi : Nat) :
    Nat → Nat → Nat → Nat → Nat
  | bi, bj, bs, 0 => bs
  | bi, bj, bs, fuel + 1 =>
    if bi + bs < ahi ∧ bj + bs < bhi ∧ a.get? (bi + bs) = b.get? (bj + bs) then
      extendRight a b ahi bhi bi bj (bs + 1) fuel
    else bs

/-- SequenceMatcher.find_longest_match on the window
`a[alo:ahi]`, `b[blo:bhi]`. -/
def find_longest_match (a b : List Char) (alo ahi blo bhi : Nat) : Nat × Nat × Nat :=
  let best := flmRows a b blo bhi ((List.range (ahi - alo)).map (alo + ·)) (alo, blo, 0) (fun _ => 0)
  let ext := extendLeft a b alo blo best.1 best.2.1 best.2.2 best.1
  let bs := extendRight a b ahi bhi ext.1 ext.2.1 ext.2.2 (ahi - (ext.1 + ext.2.2))
  (ext.1, ext.2.1, bs)

/-- Total size of all matching blocks found by the recursive splitting of
get_matching_blocks (the sort, merge and sentinel steps do not change the
total).  `fuel` bounds the recursion depth; each recursive call strictly
shrinks the window, so the initial fuel `|a| + |b| + 1` never runs out. -/
def matchesSum (a b : List Char) : Nat → Nat × Nat × Nat × Nat → Nat
  | 0, _ => 0
  | fuel + 1, (alo, ahi, blo, bhi) =>
    let m := find_longest_match a b alo ahi blo bhi
    let i := m.1
    let j := m.2.1
    let k := m.2.2
    if k = 0 then 0
    else
      k + (if alo < i ∧ blo < j then matchesSum a b fuel (alo, i, blo, j) else 0)
        + (if i + k < ahi ∧ j + k < bhi then matchesSum a b fuel (i + k, ahi, j + k, bhi) else 0)

/-- SequenceMatcher.ratio: `2 * M / T`; defined as 1 when both sequences
are empty (difflib._calculate_ratio). -/
def ratio (a b : List Char) : Rat :=
  let T := a.length + b.length
  if T = 0 then 1
  else (2 * (matchesSum a b (T + 1) (0, a.length, 0, b.length)) : Rat) / (T : Rat)

end GraffitiMap.SeqMatcher

namespace GraffitiMap

/-- config/settings.py SIMILARITY_THRESHOLD = 0.8. -/
def SIMILARITY_THRESHOLD : Rat := 4 / 5

/-- Deduplicator._calculate_similarity: SequenceMatcher ratio of the
lower-cased strings. -/
def calculate_similarity (str1 str2 : String) : Rat :=
  SeqMatcher.ratio str1.toLower.data str2.toLower.data

/-- Deduplicator.exact_duplicate. -/
def exact_duplicate (words : List String) : List String :=
  dedupByAux id [] words

/-- Deduplicator.case_insensitive_duplicate: seen keys are the lower-cased
forms, the first-seen original casing is retained. -/
def case_insensitive_duplicate (words : List String) : List String :=
  dedupByAux String.toLower [] words

/-- Deduplicator.similarity_duplicate: a word is dropped when some already
accepted word has similarity at or above the threshold. -/
def similarity_duplicate (words : List String) (threshold : Rat) : List String :=
  relFilterAux (fun word existing => threshold ≤ calculate_similarity word existing) [] words

/-- The keys of the `length_groups` defaultdict of
Deduplicator.length_duplicate, in first-occurrence order as for a Python
dict. -/
def lengthKeys (words : List String) : List Nat := setList (words.map String.length)

/-- One bucket of the `length_groups` defaultdict: every word of the
given length, in input order. -/
def lengthGroup (words : List String) (L : Nat) : List String :=
  words.filter (fun w => w.length = L)

/-- Deduplicator.length_duplicate: group by exact character length; with
`keep_longest` each group is deduplicated via `list(set(group))`,
otherwise only the first element of each group survives. -/
def length_duplicate (words : List String) (keep_longest : Bool) : List String :=
  (lengthKeys words).flatMap (fun L =>
    if keep_longest then setList (lengthGroup words L)
    else match lengthGroup words L with
      | [] => []
      | g :: _ => [g])

/-- A compiled regular expression, modelled as its findall behaviour.
Covers the fragment of patterns this development instantiates. -/
inductive CharClassItem where
  | single (c : Char)
  | range (lo hi : Char)
deriving DecidableEq

def charClassMatches (items : List CharClassItem) (c : Char) : Bool :=
  items.any (fun item =>
    match item with
    | .single c' => c = c'
    | .range lo hi => lo ≤ c ∧ c ≤ hi)

/-- Parse the body of a character class up to the closing bracket.
Returns the items and the remaining input, or none when the class is
unterminated. -/
def parseClassItems : List Char → Option (List CharClassItem × List Char)
  | [] => none
  | ']' :: rest => some ([], rest)
  | lo :: '-' :: ']' :: rest => some ([.single lo, .single '-'], rest)
  | lo :: '-' :: hi :: rest =>
    (parseClassItems rest).map (fun r => (.range lo hi :: r.1, r.2))
  | c :: rest => (parseClassItems rest).map (fun r => (.single c :: r.1, r.2))

/-- Non-overlapping left-to-right occurrences of the literal `patt`
(Python re.findall for a literal pattern; `patt` is nonempty at every
call site, the emptiness test only serves termination). -/
def findLiteral (patt : List Char) : List Char → List String
  | [] => []
  | c :: cs =>
    if patt.isPrefixOf (c :: cs) ∧ patt ≠ [] then
      String.mk patt :: findLiteral patt ((c :: cs).drop patt.length)
    else findLiteral patt cs
termination_by l => l.length
decreasing_by
  · rename_i h
    simp only [List.length_drop, List.length_cons]
    have : 0 < patt.length := List.length_pos.mpr h.2
    omega
  · simp

/-- Modelled from Python re.compile, on the fragment of patterns exercised
by this repository: a bracketed character class followed by a plus
quantifier (such as the default alphanumeric-runs pattern), or a nonempty
literal alphanumeric pattern.  Malformed patterns (for example an
unterminated character class) yield none, where re.compile raises
re.error. -/
def reCompile (pattern : String) : Option (String → List String) :=
  match pattern.data with
  | '[' :: rest =>
    match parseClassItems rest with
    | some (items, ['+']) =>
      if items = [] then none
      else some (fun s => runsOf (charClassMatches items) s)
    | _ => none
  | [] => none
  | l =>
    if l.all (fun c => c.isAlphanum) then some (fun s => findLiteral l s.data)
    else none

/-- Deduplicator.pattern_duplicate: keys are the concatenated lower-cased
regex matches; an invalid pattern falls back to exact_duplicate (the
re.error is caught and only logged).  A `none` pattern selects the default
alphanumeric-runs pattern, as in the Python signature. -/
def pattern_duplicate (words : List String) (patternOpt : Option String) : List String :=
  let pattern := patternOpt.getD "[a-zA-Z0-9]+"
  match reCompile pattern with
  | some findall =>
    dedupByAux (fun word => (String.join (findall word)).toLower) [] words
  | none => exact_duplicate words

/-- The five keys of the Deduplicator.strategies dict. -/
inductive Strategy where
  | exact
  | case_insensitive
  | similarity
  | length
  | pattern
deriving DecidableEq

/-- Dispatch through Deduplicator.strategies: each strategy function is
applied with its Python default arguments (similarity threshold 0.8,
keep_longest true, default pattern). -/
def applyStrategy : Strategy → List String → List String
  | .exact, ws => exact_duplicate ws
  | .case_insensitive, ws => case_insensitive_duplicate ws
  | .similarity, ws => similarity_duplicate ws SIMILARITY_THRESHOLD
  | .length, ws => length_duplicate ws true
  | .pattern, ws => pattern_duplicate ws none

/-!
## CombinationGenerator (src/core/combination_generator.py)

The external Dictionary Store (`self.db`, resolved through SQL) is passed
in as a function `db : List Int → List String` mapping the selected
dictionary ids to the sorted distinct word list the query returns.
-/

/-- Gregorian leap year, as implemented by Python datetime. -/
def isLeap (y : Int) : Bool := y % 4 = 0 ∧ (y % 100 ≠ 0 ∨ y % 400 = 0)

/-- Days in a month of the Gregorian calendar. -/
def daysInMonth (y m : Int) : Int :=
  if m = 2 then (if isLeap y then 29 else 28)
  else if m = 4 ∨ m = 6 ∨ m = 9 ∨ m = 11 then 30
  else 31

/-- Python format specifier `02d`. -/
def pad2 (i : Int) : String := zeroPadInt 2 i

/-- strftime %Y: the year, zero padded to at least four digits. -/
def pad4 (i : Int) : String := zeroPadInt 4 i

/-- CombinationGenerator.generate_date_range.  The MMDD branch validates
each (month, day) pair against the reference year 2000 (a leap year, so
February 29 is accepted).  The YYYYMMDD branch walks every calendar day
chronologically; the embedding lists the same days as
year-month-day triples. -/
def generate_date_range (start_year end_year : Int) (date_format : String) : List String :=
  if date_format = "YYYY" then
    (intRange start_year end_year).map (fun year => toString year)
  else if date_format = "YY" then
    (intRange start_year end_year).map (fun year => strTakeRight 2 (toString year))
  else if date_format = "MM" then
    (intRange 1 12).map pad2
  else if date_format = "DD" then
    (intRange 1 31).map pad2
  else if date_format = "YYYYMMDD" then
    (intRange start_year end_year).flatMap (fun y =>
      (intRange 1 12).flatMap (fun m =>
        (intRange 1 (daysInMonth y m)).map (fun d => pad4 y ++ pad2 m ++ pad2 d)))
  else if date_format = "MMDD" then
    (intRange 1 12).flatMap (fun m =>
      (intRange 1 31).filterMap (fun d =>
        if d ≤ daysInMonth 2000 m then some (pad2 m ++ pad2 d) else none))
  else []

/-- In the YYYYMMDD branch the source constructs
datetime(start_year, 1, 1) and datetime(end_year, 12, 31), which raise
ValueError outside years 1..9999; the raise propagates out of
generate_date_range into the callers (caught there).  This predicate
marks exactly those inputs. -/
def dateRangeRaises (start_year end_year : Int) (date_format : String) : Bool :=
  date_format = "YYYYMMDD" ∧
    ¬(1 ≤ start_year ∧ start_year ≤ 9999 ∧ 1 ≤ end_year ∧ end_year ≤ 9999)

/-- The numeric format templates of CombinationGenerator
(`generate_number_sequence` format_str): plain decimal, or zero padding
to a given width.  The source accepts any Python format string; the
embedding covers the numeric-template fragment the specification
enumerates. -/
inductive NumFormat where
  | plain
  | zeroPad (width : Nat)
deriving DecidableEq

def pyFormatInt : NumFormat → Int → String
  | .plain, i => toString i
  | .zeroPad w, i => zeroPadInt w i

/-- CombinationGenerator.generate_number_sequence. -/
def generate_number_sequence (start stop : Int) (format_str : NumFormat) : List String :=
  (intRange start stop).map (pyFormatInt format_str)

/-- CombinationGenerator.parse_custom_input: split on newlines, then on
commas within a line, strip items, drop blanks, deduplicate via a set. -/
def parse_custom_input (input_text : String) : List String :=
  if pyStrip input_text = "" then []
  else
    let items := (pySplitChar '\n' (pyStrip input_text)).flatMap (fun rawLine =>
      let line := pyStrip rawLine
      if line = "" then []
      else if line.data.contains ',' then
        (pySplitChar ',' line).filterMap (fun item =>
          if pyStrip item = "" then none else some (pyStrip item))
      else [line])
    setList items

/-- CombinationGenerator.get_dictionary_words: an empty id list returns []
without consulting the store. -/
def get_dictionary_words (db : List Int → List String) (dictionary_ids : List Int) : List String :=
  if dictionary_ids = [] then [] else db dictionary_ids

/-- One `area_x` entry of a combination config dict: the `type` tag with
its `data` payload.  A date area carries the optional `format` key already
defaulted to YYYY (`date_config.get`), mirroring every access in the
source. -/
inductive AreaConf where
  | custom (data : String)
  | text (data : String)
  | dictionary (data : List Int)
  | date (start_year end_year : Int) (format : String)
  | number (start stop : Int) (format : NumFormat)

/-- A combination config dict: `area_a`, `area_b`, `area_c` when present,
plus `connector` (default "") and `areas_enabled`
(default `["a","b","c"]`) already defaulted as by `config.get`. -/
structure CombinationConfig where
  area_a : Option AreaConf
  area_b : Option AreaConf
  area_c : Option AreaConf
  connector : String
  areas_enabled : List String

/-- Area A resolution in generate_combinations: only the custom and text
types are handled there; any other type leaves `areas_data` without an
`a` entry. -/
def resolveA : AreaConf → Option (List String)
  | .custom d => some (parse_custom_input d)
  | .text d => some (if d = "" then [] else [d])
  | _ => none

/-- Area B resolution in generate_combinations (dictionary or custom). -/
def resolveB (db : List Int → List String) : AreaConf → Option (List String)
  | .dictionary ids => some (get_dictionary_words db ids)
  | .custom d => some (parse_custom_input d)
  | _ => none

/-- Area C resolution in generate_combinations (date, number or custom). -/
def resolveC (db : List Int → List String) : AreaConf → Option (List String)
  | .date sy ey f => some (generate_date_range sy ey f)
  | .number s e f => some (generate_number_sequence s e f)
  | .custom d => some (parse_custom_input d)
  | _ => none

/-- The `areas_data` entry for a key: present exactly when the key is
enabled, the corresponding `area_x` is in the config, and its type is
handled for that slot. -/
def areaData (db : List Int → List String) (config : CombinationConfig) (k : String) :
    Option (List String) :=
  if k = "a" then
    (if "a" ∈ config.areas_enabled then config.area_a.bind resolveA else none)
  else if k = "b" then
    (if "b" ∈ config.areas_enabled then config.area_b.bind (resolveB db) else none)
  else if k = "c" then
    (if "c" ∈ config.areas_enabled then config.area_c.bind (resolveC db) else none)
  else none

/-- itertools.product over a list of lists, rightmost factor varying
fastest. -/
def productLists : List (List String) → List (List String)
  | [] => [[]]
  | l :: rest => l.flatMap (fun x => (productLists rest).map (fun t => x :: t))

/-- The one exception point inside the try block of generate_combinations:
a YYYYMMDD date area with years outside datetime support.  When it fires,
the broad except makes the generator yield nothing (and the estimate
return 0). -/
def configRaises (config : CombinationConfig) : Bool :=
  decide ("c" ∈ config.areas_enabled) &&
    match config.area_c with
    | some (.date sy ey f) => dateRangeRaises sy ey f
    | _ => false

/-- CombinationGenerator.generate_combinations, materialized to the list
of yielded strings.  `areas_data` has keys among a, b, c, so iterating
its sorted keys is the filterMap over ["a", "b", "c"]; empty areas are
then filtered out, and if nothing remains the generator yields nothing. -/
def generate_combinations (db : List Int → List String) (config : CombinationConfig) : List String :=
  if configRaises config then []
  else
    let dataList := ["a", "b", "c"].filterMap (areaData db config)
    let valid := dataList.filter (fun l => l ≠ [])
    if valid = [] then []
    else
      (productLists valid).map (fun combination =>
        if config.connector ≠ "" then String.intercalate config.connector combination
        else String.join combination)

/-- The per-area count of estimate_combination_count.  Unlike the
generate side, every type is counted under every area key, and a number
area is counted as `stop - start + 1` without materializing the list. -/
def areaCountE (db : List Int → List String) : AreaConf → Int
  | .custom d => (parse_custom_input d).length
  | .text d => if d = "" then 0 else 1
  | .dictionary ids => (get_dictionary_words db ids).length
  | .date sy ey f => (generate_date_range sy ey f).length
  | .number s e _ => e - s + 1

/-- The config dict lookup `config[f'area_{area}']` as performed by
estimate_combination_count: keys other than a, b, c are never present. -/
def lookupArea (config : CombinationConfig) (k : String) : Option AreaConf :=
  if k = "a" then config.area_a
  else if k = "b" then config.area_b
  else if k = "c" then config.area_c
  else none

/-- The loop of estimate_combination_count: `acc` is `total_count`; a
missing area key is skipped, a nonpositive count returns 0 immediately. -/
def estimateGo (db : List Int → List String) (config : CombinationConfig) :
    List String → Int → Int
  | [], acc => acc
  | k :: rest, acc =>
    match lookupArea config k with
    | none => estimateGo db config rest acc
    | some ac =>
      let c := areaCountE db ac
      if 0 < c then estimateGo db config rest (acc * c) else 0

/-- The raise condition for estimate_combination_count: unlike the
generate side it counts date areas under every key, so a YYYYMMDD area
with unsupported years raises wherever it sits.  Whenever the raise
would fire mid-loop the loop result is 0 anyway (either the raise is
reached, or an earlier empty area already returned 0), so the guard is
exact. -/
def estimateRaises (config : CombinationConfig) : Bool :=
  config.areas_enabled.any (fun k =>
    match lookupArea config k with
    | some (.date sy ey f) => dateRangeRaises sy ey f
    | _ => false)

/-- CombinationGenerator.estimate_combination_count. -/
def estimate_combination_count (db : List Int → List String) (config : CombinationConfig) : Int :=
  if estimateRaises config then 0
  else estimateGo db config config.areas_enabled 1

/-- The contribution of a key to the estimate: the per-area count when
the key is enabled and its area is present, none otherwise. -/
def ecount (db : List Int → List String) (config : CombinationConfig) (k : String) : Option Int :=
  if k ∈ config.areas_enabled then (lookupArea config k).map (areaCountE db) else none

/-!
## FuzzingGenerator (src/core/fuzzing_generator.py)

The two nondeterministic points — random.sample(range(n), 2) inside
swap_path_positions and random.sample(other_results, k) at the result
cap — are passed in as function parameters, so every theorem quantifies
over all possible draws.
-/

/-- Python set.add on the insertion-ordered list model. -/
def setAdd [DecidableEq α] (l : List α) (x : α) : List α :=
  if x ∈ l then l else l ++ [x]

/-- Python set.update on the insertion-ordered list model. -/
def setUnion [DecidableEq α] (l adds : List α) : List α := adds.foldl setAdd l

/-- Python `s * n` for strings. -/
def strRepeat (s : String) (n : Nat) : String := String.join (List.replicate n s)

/-- Python str.replace on nonempty patterns: leftmost non-overlapping
occurrences (the emptiness test only serves termination; the empty
pattern is handled by the wrapper). -/
def strReplaceAux (patt repl : List Char) : List Char → List Char
  | [] => []
  | c :: cs =>
    if patt.isPrefixOf (c :: cs) ∧ patt ≠ [] then
      repl ++ strReplaceAux patt repl ((c :: cs).drop patt.length)
    else c :: strReplaceAux patt repl cs
termination_by l => l.length
decreasing_by
  · rename_i h
    simp only [List.length_drop, List.length_cons]
    have : 0 < patt.length := List.length_pos.mpr h.2
    omega
  · simp

/-- Python str.replace (an empty pattern inserts the replacement before
every character and at the end). -/
def pyReplace (s patt repl : String) : String :=
  if patt = "" then String.mk (repl.data ++ s.data.flatMap (fun c => c :: repl.data))
  else String.mk (strReplaceAux patt.data repl.data s.data)

/-- FuzzingGenerator.path_traversal_payloads. -/
def path_traversal_payloads : List String :=
  ["../", "..\\", "..../", "....\\",
   "%2e%2e%2f", "%2e%2e%5c", "%252e%252e%252f",
   "..%2f", "..%5c", "..%252f", "..%255c"]

/-- FuzzingGenerator.param_injection_payloads. -/
def param_injection_payloads : List String :=
  ["' OR '1'='1", "\" OR \"1\"=\"1", "1 OR 1=1",
   "<script>alert(1)</script>", "${7*7}", "\x7b\x7b7*7\x7d\x7d",
   "../../../etc/passwd", "..\\..\\..\\windows\\system32\\drivers\\etc\\hosts",
   "file:///etc/passwd", "http://evil.com/callback"]

/-- FuzzingGenerator.extract_path_segments. -/
def extract_path_segments (path : String) : List String :=
  let p := pyStripChar '/' path
  if p = "" then [] else pySplitChar '/' p

/-- Regex `v` followed by one or more digits, anchored on both sides. -/
def isVersionSeg (s : String) : Bool :=
  match s.data with
  | 'v' :: rest => rest ≠ [] && rest.all Char.isDigit
  | _ => false

/-- FuzzingGenerator._matches_pattern: exact match, version pattern for
the keys v1..v5, or mutual digit strings. -/
def matches_pattern (segment pattern : String) : Bool :=
  segment = pattern ||
  (decide (pattern ∈ ["v1", "v2", "v3", "v4", "v5"]) && isVersionSeg segment) ||
  (pyIsDigit pattern && pyIsDigit segment)

/-- FuzzingGenerator.replace_path_segments: for each segment and each
rule, whole-segment replacement when the pattern matches, and in-segment
substring replacement when the pattern occurs inside the segment. -/
def replace_path_segments (path : String) (replacements : List (String × List String)) : List String :=
  let segments := extract_path_segments path
  if segments = [] then [path]
  else
    setList (path :: (List.range segments.length).flatMap (fun i =>
      replacements.flatMap (fun pr =>
        (if matches_pattern (segments.getD i "") pr.1 then
          pr.2.map (fun replacement =>
            "/" ++ String.intercalate "/" (segments.set i replacement))
        else []) ++
        (if substrContains (segments.getD i "") pr.1 then
          pr.2.map (fun replacement =>
            "/" ++ String.intercalate "/" (segments.set i (pyReplace (segments.getD i "") pr.1 replacement)))
        else []))))

/-- Write both swap positions of a pairwise transposition. -/
def swapIdx (l : List String) (i j : Nat) : List String :=
  let vi := l.getD i ""
  let vj := l.getD j ""
  (l.set i vj).set j vi

/-- FuzzingGenerator.swap_path_positions.  `swapRng t` models the t-th
draw of random.sample(range(n), 2); a draw is always a pair of distinct
in-range indices, so other pairs are ignored (they correspond to no
possible draw). -/
def swap_path_positions (swapRng : Nat → Nat × Nat) (path : String) : List String :=
  let segments := extract_path_segments path
  if segments.length < 2 then [path]
  else
    let n := segments.length
    let adjacent := (List.range (n - 1)).map (fun i =>
      "/" ++ String.intercalate "/" (swapIdx segments i (i + 1)))
    let firstLast :=
      if 2 < n then ["/" ++ String.intercalate "/" (swapIdx segments 0 (n - 1))] else []
    let randoms := (List.range (min 3 n)).filterMap (fun t =>
      let ij := swapRng t
      if ij.1 < n ∧ ij.2 < n ∧ ij.1 ≠ ij.2 then
        some ("/" ++ String.intercalate "/" (swapIdx segments ij.1 ij.2))
      else none)
    setList (path :: (adjacent ++ firstLast ++ randoms))

/-- FuzzingGenerator.add_path_traversal: each payload repeated for every
depth is prepended to the slash-stripped path, and the slash-stripped
payload is inserted at every inter-segment position; every added variant
carries a fresh leading slash. -/
def add_path_traversal (path : String) (max_depth : Nat) : List String :=
  let segments := extract_path_segments path
  setList (path :: path_traversal_payloads.flatMap (fun payload =>
    ((List.range max_depth).map (fun d =>
      "/" ++ (strRepeat payload (d + 1) ++ pyLStripChar '/' path))) ++
    ((List.range segments.length).map (fun i =>
      "/" ++ String.intercalate "/" (segments.insertIdx i (pyRStripChars ['/', '\\'] payload))))))

end GraffitiMap

namespace GraffitiMap.UrlLib

/-!
Model of the urllib.parse fragment used by add_parameter_injection, at
ASCII fidelity: percent-decoded bytes are modelled as the characters of
the same code point and non-ASCII characters are encoded through their
UTF-8 bytes, which agrees with CPython on all inputs this development
evaluates.  The params component (a semicolon suffix of the last path
segment) is not split out; as urlunparse rejoins it verbatim, parse
followed by unparse with a replaced query is unaffected.
-/

/-- The five URL components this code reads and writes. -/
structure ParseResult where
  scheme : String
  netloc : String
  path : String
  query : String
  fragment : String

/-- Split at the first occurrence of `c`; when `c` is absent the whole
input is the first component. -/
def splitAtFirst (c : Char) (l : List Char) : List Char × List Char :=
  let before := l.takeWhile (· ≠ c)
  (before, (l.drop before.length).drop 1)

/-- A valid URL scheme: a letter followed by letters, digits, plus,
minus or dot. -/
def validScheme : List Char → Bool
  | [] => false
  | c :: cs => c.isAlpha && cs.all (fun d => d.isAlphanum || d = '+' || d = '-' || d = '.')

/-- urllib.parse.urlsplit (ASCII model, fragments allowed). -/
def urlparse (url : String) : ParseResult :=
  let l := url.data
  let beforeColon := l.takeWhile (· ≠ ':')
  let hasScheme := beforeColon.length < l.length && validScheme beforeColon
  let scheme := if hasScheme then String.mk (beforeColon.map Char.toLower) else ""
  let rest := if hasScheme then l.drop (beforeColon.length + 1) else l
  let hasNetloc := ['/', '/'].isPrefixOf rest
  let afterSlashes := rest.drop 2
  let netloc :=
    if hasNetloc then afterSlashes.takeWhile (fun c => c ≠ '/' && c ≠ '?' && c ≠ '#') else []
  let rest := if hasNetloc then afterSlashes.drop netloc.length else rest
  let frag := splitAtFirst '#' rest
  let pq := splitAtFirst '?' frag.1
  { scheme := scheme, netloc := String.mk netloc, path := String.mk pq.1,
    query := String.mk pq.2, fragment := String.mk frag.2 }

def hexVal (c : Char) : Option Nat :=
  if '0' ≤ c ∧ c ≤ '9' then some (c.toNat - 48)
  else if 'a' ≤ c ∧ c ≤ 'f' then some (c.toNat - 87)
  else if 'A' ≤ c ∧ c ≤ 'F' then some (c.toNat - 55)
  else none

/-- Percent decoding; malformed escapes are left verbatim, as in
urllib.parse.unquote. -/
def percentDecode : List Char → List Char
  | [] => []
  | '%' :: h1 :: h2 :: rest =>
    match hexVal h1, hexVal h2 with
    | some a, some b => Char.ofNat (16 * a + b) :: percentDecode rest
    | _, _ => '%' :: percentDecode (h1 :: h2 :: rest)
  | c :: rest => c :: percentDecode rest

/-- urllib.parse.unquote_plus. -/
def unquote_plus (s : String) : String :=
  String.mk (percentDecode (s.data.map (fun c => if c = '+' then ' ' else c)))

/-- UTF-8 bytes of a character. -/
def utf8Bytes (c : Char) : List Nat :=
  let n := c.toNat
  if n < 0x80 then [n]
  else if n < 0x800 then [0xC0 + n / 0x40, 0x80 + n % 0x40]
  else if n < 0x10000 then
    [0xE0 + n / 0x1000, 0x80 + (n / 0x40) % 0x40, 0x80 + n % 0x40]
  else
    [0xF0 + n / 0x40000, 0x80 + (n / 0x1000) % 0x40, 0x80 + (n / 0x40) % 0x40, 0x80 + n % 0x40]

def hexDigitUpper (n : Nat) : Char :=
  if n < 10 then Char.ofNat (48 + n) else Char.ofNat (55 + n)

/-- urllib.parse.quote_plus with empty safe set (as urlencode uses it):
always-safe characters kept, space to plus, everything else
percent-encoded bytewise with uppercase hex. -/
def quote_plus (s : String) : String :=
  String.mk (s.data.flatMap (fun c =>
    if c.isAlphanum || c = '_' || c = '.' || c = '-' || c = '~' then [c]
    else if c = ' ' then ['+']
    else (utf8Bytes c).flatMap (fun b => ['%', hexDigitUpper (b / 16), hexDigitUpper (b % 16)])))

/-- urllib.parse.parse_qsl with keep_blank_values: empty fields are
skipped, a field without an equals sign keeps a blank value. -/
def parse_qsl (qs : String) : List (String × String) :=
  (qs.splitOn "&").filterMap (fun field =>
    if field = "" then none
    else
      let nv := splitAtFirst '=' field.data
      if field.data.contains '=' then
        some (unquote_plus (String.mk nv.1), unquote_plus (String.mk nv.2))
      else some (unquote_plus field, ""))

/-- Append a value under a key of the ordered multi-dict. -/
def assocAppend : List (String × List String) → String → String → List (String × List String)
  | [], k, v => [(k, [v])]
  | (k', vs) :: rest, k, v =>
    if k' = k then (k', vs ++ [v]) :: rest else (k', vs) :: assocAppend rest k v

/-- urllib.parse.parse_qs: group the pairs into an insertion-ordered
multi-dict. -/
def parse_qs (qs : String) : List (String × List String) :=
  (parse_qsl qs).foldl (fun d kv => assocAppend d kv.1 kv.2) []

/-- Python dict assignment `d[k] = v`: overwrite in place, or append a
new key. -/
def assocSet : List (String × List String) → String → List String → List (String × List String)
  | [], k, v => [(k, v)]
  | (k', vs) :: rest, k, v =>
    if k' = k then (k', v) :: rest else (k', vs) :: assocSet rest k v

/-- urllib.parse.urlencode with doseq: one key=value field per value, in
dict order, quote_plus applied to both sides. -/
def urlencode (params : List (String × List String)) : String :=
  String.intercalate "&" (params.flatMap (fun kv =>
    kv.2.map (fun v => quote_plus kv.1 ++ "=" ++ quote_plus v)))

/-- urllib.parse.urlunparse on the five modelled components (the params
component is empty for every value this development constructs). -/
def urlunparse (p : ParseResult) : String :=
  let url := p.path
  let url :=
    if p.netloc ≠ "" ∨ ['/', '/'].isPrefixOf url.data then
      "//" ++ p.netloc ++ (if url ≠ "" ∧ ¬ ['/'].isPrefixOf url.data then "/" ++ url else url)
    else url
  let url := if p.scheme ≠ "" then p.scheme ++ ":" ++ url else url
  let url := if p.query ≠ "" then url ++ "?" ++ p.query else url
  if p.fragment ≠ "" then url ++ "#" ++ p.fragment else url

end GraffitiMap.UrlLib

namespace GraffitiMap

/-- The commonly sensitive parameter names added by
add_parameter_injection. -/
def malicious_params : List String :=
  ["debug", "test", "admin", "root", "file", "path", "url", "redirect"]

/-- FuzzingGenerator.add_parameter_injection: only applies when the URL
parses with a nonempty query; each existing parameter value is replaced
by, and extended with, each payload, and each sensitive parameter name is
set to each of the first five payloads. -/
def add_parameter_injection (url : String) : List String :=
  let parsed := UrlLib.urlparse url
  if parsed.query = "" then [url]
  else
    let params := UrlLib.parse_qs parsed.query
    let rebuild := fun newParams =>
      UrlLib.urlunparse { parsed with query := UrlLib.urlencode newParams }
    let existing := params.flatMap (fun kv =>
      param_injection_payloads.flatMap (fun payload =>
        [rebuild (UrlLib.assocSet params kv.1 [payload])] ++
        (if kv.2 ≠ [] then [rebuild (UrlLib.assocSet params kv.1 [kv.2.headI ++ payload])]
         else [])))
    let introduced := malicious_params.flatMap (fun name =>
      (param_injection_payloads.take 5).map (fun payload =>
        rebuild (UrlLib.assocSet params name [payload])))
    setList (url :: (existing ++ introduced))

/-- A fuzzing config dict with every key already defaulted as read by
`config.get`: replacement_rules (default none, falsy when empty),
position_swap, param_injection, path_traversal (default false) and
max_results (default 1000). -/
structure FuzzConfig where
  replacement_rules : List (String × List String)
  position_swap : Bool
  param_injection : Bool
  path_traversal : Bool
  max_results : Int

/-- random.sample(population, k): raises ValueError (none) unless
0 ≤ k ≤ len(population); the draw itself is supplied by the harness
function `sample`. -/
def pySample (sample : List String → Nat → List String)
    (population : List String) (k : Int) : Option (List String) :=
  if k < 0 ∨ (population.length : Int) < k then none
  else some (sample population k.toNat)

/-- The accumulation phase of generate_fuzzing_variants: the result set
is seeded with the target, then each enabled mutation family is unioned
in (replacement rules participate when the rules dict is truthy; the
parameter injection family additionally requires the target to contain
"http" or a question mark). -/
def fuzzPool (swapRng : Nat → Nat × Nat) (target : String) (config : FuzzConfig) : List String :=
  let r := [target]
  let r :=
    if config.replacement_rules ≠ [] then
      setUnion r (replace_path_segments target config.replacement_rules)
    else r
  let r := if config.position_swap then setUnion r (swap_path_positions swapRng target) else r
  let r := if config.path_traversal then setUnion r (add_path_traversal target 3) else r
  if config.param_injection ∧ (substrContains target "http" ∨ target.data.contains '?') then
    setUnion r (add_parameter_injection target)
  else r

/-- The cap phase of generate_fuzzing_variants: over max_results, the
target is kept and the remainder is a sample of the other results (a
negative sample size raises ValueError, which the broad except turns
into the singleton target). -/
def capResults (sample : List String → Nat → List String) (target : String)
    (config : FuzzConfig) (r : List String) : List String :=
  if config.max_results < (r.length : Int) then
    match pySample sample (r.filter (fun x => x ≠ target)) (config.max_results - 1) with
    | some selected => target :: selected
    | none => [target]
  else r

/-- FuzzingGenerator.generate_fuzzing_variants: accumulate all enabled
mutation families into one result set, then cap. -/
def generate_fuzzing_variants (sample : List String → Nat → List String)
    (swapRng : Nat → Nat × Nat) (target : String) (config : FuzzConfig) : List String :=
  capResults sample target config (fuzzPool swapRng target config)

/-!
## Auxiliary predicates and concrete harness values used by the theorems
-/

/-- The invariant established by a dedupByAux pass: each element's key is
outside the seen set extended with all earlier keys. -/
def DedupOk [DecidableEq β] (key : α → β) : List β → List α → Prop
  | _, [] => True
  | seen, x :: xs => key x ∉ seen ∧ DedupOk key (key x :: seen) xs

/-- The invariant established by a relFilterAux pass: no element is
related to the accumulator extended with all earlier elements. -/
def RelOk (p : α → α → Bool) : List α → List α → Prop
  | _, [] => True
  | acc, x :: xs => acc.any (p x) = false ∧ RelOk p (acc ++ [x]) xs

/-- A dictionary store with no words (the concrete theorems below do not
involve dictionary areas). -/
def emptyStore : List Int → List String := fun _ => []

/-- A concrete sample harness: the draw keeps nothing. -/
def noSample : List String → Nat → List String := fun _ _ => []

/-- A concrete random-swap harness whose pairs are never valid draws. -/
def noSwap : Nat → Nat × Nat := fun _ => (0, 0)

/-!
## Lemmas about the deduplication loops
-/

theorem dedupByAux_sublist [DecidableEq β] (key : α → β) (l : List α) :
    ∀ seen : List β, (dedupByAux key seen l).Sublist l := by
  induction l with
  | nil => intro seen; simp [dedupByAux]
  | cons x xs ih =>
    intro seen
    by_cases h : key x ∈ seen
    · simpa only [dedupByAux, if_pos h] using (ih seen).cons x
    · simpa only [dedupByAux, if_neg h] using (ih (key x :: seen)).cons₂ x

theorem dedupByAux_ok [DecidableEq β] (key : α → β) (l : List α) :
    ∀ seen : List β, DedupOk key seen (dedupByAux key seen l) := by
  induction l with
  | nil => intro seen; trivial
  | cons x xs ih =>
    intro seen
    by_cases h : key x ∈ seen
    · simpa only [dedupByAux, if_pos h] using ih seen
    · simp only [dedupByAux, if_neg h]
      exact ⟨h, ih (key x :: seen)⟩

theorem dedupByAux_of_ok [DecidableEq β] (key : α → β) (l : List α) :
    ∀ seen : List β, DedupOk key seen l → dedupByAux key seen l = l := by
  induction l with
  | nil => intro seen _; rfl
  | cons x xs ih =>
    intro seen h
    obtain ⟨h1, h2⟩ := h
    simp only [dedupByAux, if_neg h1]
    rw [ih _ h2]

theorem dedupByAux_idem [DecidableEq β] (key : α → β) (l : List α) :
    dedupByAux key [] (dedupByAux key [] l) = dedupByAux key [] l :=
  dedupByAux_of_ok key _ [] (dedupByAux_ok key l [])

theorem mem_dedupByAux_id [DecidableEq α] (a : α) (l : List α) :
    ∀ seen : List α, a ∈ dedupByAux id seen l ↔ a ∈ l ∧ a ∉ seen := by
  induction l with
  | nil => intro seen; simp [dedupByAux]
  | cons x xs ih =>
    intro seen
    by_cases h : x ∈ seen
    · simp only [dedupByAux, id_eq, if_pos h]
      rw [ih seen]
      constructor
      · rintro ⟨hx, hs⟩
        exact ⟨List.mem_cons_of_mem _ hx, hs⟩
      · rintro ⟨hx, hs⟩
        rcases List.mem_cons.mp hx with rfl | hx'
        · exact absurd h hs
        · exact ⟨hx', hs⟩
    · simp only [dedupByAux, id_eq, if_neg h]
      constructor
      · intro hm
        rcases List.mem_cons.mp hm with rfl | hm'
        · exact ⟨List.mem_cons_self _ _, h⟩
        · obtain ⟨hx, hs⟩ := (ih (x :: seen)).mp hm'
          exact ⟨List.mem_cons_of_mem _ hx, fun hc => hs (List.mem_cons_of_mem _ hc)⟩
      · rintro ⟨hx, hs⟩
        rcases List.mem_cons.mp hx with rfl | hx'
        · exact List.mem_cons_self _ _
        · by_cases hax : a = x
          · subst hax; exact List.mem_cons_self _ _
          · refine List.mem_cons_of_mem _ ((ih (x :: seen)).mpr ⟨hx', ?_⟩)
            intro hc
            rcases List.mem_cons.mp hc with h1 | h2
            · exact hax h1
            · exact hs h2

theorem mem_setList [DecidableEq α] (a : α) (l : List α) : a ∈ setList l ↔ a ∈ l := by
  rw [setList, mem_dedupByAux_id]
  simp

theorem dedupOk_id_nodup [DecidableEq α] (l : List α) :
    ∀ seen : List α, DedupOk id seen l → l.Nodup ∧ ∀ a ∈ l, a ∉ seen := by
  induction l with
  | nil =>
    intro seen _
    exact ⟨List.nodup_nil, by simp⟩
  | cons x xs ih =>
    intro seen h
    obtain ⟨h1, h2⟩ := h
    obtain ⟨hnd, hmem⟩ := ih _ h2
    refine ⟨List.nodup_cons.mpr ⟨fun hc => (hmem x hc) (List.mem_cons_self _ _), hnd⟩, ?_⟩
    intro a ha
    rcases List.mem_cons.mp ha with rfl | ha'
    · exact h1
    · exact fun hc => (hmem a ha') (List.mem_cons_of_mem _ hc)

theorem setList_nodup [DecidableEq α] (l : List α) : (setList l).Nodup :=
  (dedupOk_id_nodup _ _ (dedupByAux_ok id l [])).1

theorem setList_idem [DecidableEq α] (l : List α) : setList (setList l) = setList l :=
  dedupByAux_idem id l

theorem relFilterAux_sublist (p : α → α → Bool) (l : List α) :
    ∀ acc : List α, (relFilterAux p acc l).Sublist l := by
  induction l with
  | nil => intro acc; simp [relFilterAux]
  | cons x xs ih =>
    intro acc
    by_cases h : acc.any (p x)
    · simpa only [relFilterAux, if_pos h] using (ih acc).cons x
    · simpa only [relFilterAux, if_neg h] using (ih (acc ++ [x])).cons₂ x

theorem relFilterAux_ok (p : α → α → Bool) (l : List α) :
    ∀ acc : List α, RelOk p acc (relFilterAux p acc l) := by
  induction l with
  | nil => intro acc; trivial
  | cons x xs ih =>
    intro acc
    by_cases h : acc.any (p x)
    · simpa only [relFilterAux, if_pos h] using ih acc
    · simp only [relFilterAux, if_neg h]
      exact ⟨Bool.eq_false_iff.mpr h, ih (acc ++ [x])⟩

theorem relFilterAux_of_ok (p : α → α → Bool) (l : List α) :
    ∀ acc : List α, RelOk p acc l → relFilterAux p acc l = l := by
  induction l with
  | nil => intro acc _; rfl
  | cons x xs ih =>
    intro acc h
    obtain ⟨h1, h2⟩ := h
    simp only [relFilterAux, h1, Bool.false_eq_true, if_false]
    rw [ih _ h2]

theorem relFilterAux_idem (p : α → α → Bool) (l : List α) :
    relFilterAux p [] (relFilterAux p [] l) = relFilterAux p [] l :=
  relFilterAux_of_ok p _ [] (relFilterAux_ok p l [])

/-!
## Lemmas about the length-grouped strategy
-/

theorem flatMap_congr_mem (l : List α) (f g : α → List β)
    (h : ∀ a ∈ l, f a = g a) : l.flatMap f = l.flatMap g := by
  induction l with
  | nil => rfl
  | cons x xs ih =>
    simp only [List.flatMap_cons]
    rw [h x (List.mem_cons_self _ _), ih (fun a ha => h a (List.mem_cons_of_mem _ ha))]

theorem dedupByAux_append_of_seen [DecidableEq α] (blk : List α) :
    ∀ (r seen : List α), (∀ x ∈ blk, x ∈ seen) →
      dedupByAux id seen (blk ++ r) = dedupByAux id seen r := by
  induction blk with
  | nil => intro r seen _; rfl
  | cons x xs ih =>
    intro r seen h
    simp only [List.cons_append, dedupByAux, id_eq, if_pos (h x (List.mem_cons_self _ _))]
    exact ih r seen (fun y hy => h y (List.mem_cons_of_mem _ hy))

theorem dedupByAux_flatMap_const [DecidableEq α] (ls : List α) :
    ∀ (f : α → List α) (seen : List α), ls.Nodup → (∀ L ∈ ls, L ∉ seen) →
      (∀ L ∈ ls, f L ≠ []) → (∀ L ∈ ls, ∀ x ∈ f L, x = L) →
      dedupByAux id seen (ls.flatMap f) = ls := by
  induction ls with
  | nil => intro f seen _ _ _ _; rfl
  | cons L ls ih =>
    intro f seen hnd hseen hne hall
    obtain ⟨hL, hnd'⟩ := List.nodup_cons.mp hnd
    have hfL : ∀ x ∈ f L, x = L := hall L (List.mem_cons_self _ _)
    obtain ⟨y, blk, hy⟩ : ∃ y blk, f L = y :: blk := by
      cases hfl : f L with
      | nil => exact absurd hfl (hne L (List.mem_cons_self _ _))
      | cons y blk => exact ⟨y, blk, rfl⟩
    have hyL : y = L := hfL y (hy ▸ List.mem_cons_self _ _)
    have hLseen : L ∉ seen := hseen L (List.mem_cons_self _ _)
    simp only [List.flatMap_cons, hy, hyL, List.cons_append, dedupByAux, id_eq,
      if_neg hLseen]
    congr 1
    rw [dedupByAux_append_of_seen blk _ _ (fun x hx => by
      have : x = L := hfL x (hy ▸ List.mem_cons_of_mem _ hx)
      simp [this])]
    exact ih f (L :: seen) hnd'
      (fun L' hL' => by
        intro hc
        rcases List.mem_cons.mp hc with rfl | hc'
        · exact hL hL'
        · exact (hseen L' (List.mem_cons_of_mem _ hL')) hc')
      (fun L' hL' => hne L' (List.mem_cons_of_mem _ hL'))
      (fun L' hL' => hall L' (List.mem_cons_of_mem _ hL'))

theorem filter_flatMap_single [DecidableEq α] (q : β → Bool) (ls : List α) :
    ∀ (g : α → List β) (L : α), ls.Nodup → L ∈ ls → (∀ x ∈ g L, q x = true) →
      (∀ L' ∈ ls, L' ≠ L → ∀ x ∈ g L', q x = false) →
      (ls.flatMap g).filter q = g L := by
  induction ls with
  | nil => intro g L _ hL _ _; exact absurd hL (List.not_mem_nil L)
  | cons L0 ls ih =>
    intro g L hnd hL hq hnq
    obtain ⟨hL0, hnd'⟩ := List.nodup_cons.mp hnd
    simp only [List.flatMap_cons, List.filter_append]
    rcases List.mem_cons.mp hL with rfl | hL'
    · rw [List.filter_eq_self.mpr hq]
      have hrest : (ls.flatMap g).filter q = [] := by
        rw [List.filter_eq_nil_iff]
        intro x hx
        obtain ⟨L', hL', hxg⟩ := List.mem_flatMap.mp hx
        have : q x = false :=
          hnq L' (List.mem_cons_of_mem _ hL') (fun hc => hL0 (hc ▸ hL')) x hxg
        simp [this]
      rw [hrest, List.append_nil]
    · have hfirst : (g L0).filter q = [] := by
        rw [List.filter_eq_nil_iff]
        intro x hx
        have : q x = false :=
          hnq L0 (List.mem_cons_self _ _) (fun hc => hL0 (hc ▸ hL')) x hx
        simp [this]
      rw [hfirst, List.nil_append]
      exact ih g L hnd' hL' hq (fun L' h1 h2 => hnq L' (List.mem_cons_of_mem _ h1) h2)

theorem mem_lengthKeys (ws : List String) (L : Nat) :
    L ∈ lengthKeys ws ↔ ∃ w ∈ ws, w.length = L := by
  rw [lengthKeys, mem_setList]
  simp [List.mem_map, eq_comm]

theorem lengthGroup_all (ws : List String) (L : Nat) :
    ∀ w ∈ lengthGroup ws L, w.length = L := by
  intro w hw
  have := List.of_mem_filter hw
  simpa using this

theorem lengthGroup_ne_nil (ws : List String) (L : Nat) (h : L ∈ lengthKeys ws) :
    lengthGroup ws L ≠ [] := by
  obtain ⟨w, hw, hwl⟩ := (mem_lengthKeys ws L).mp h
  intro hc
  have : w ∈ lengthGroup ws L := List.mem_filter.mpr ⟨hw, by simp [hwl]⟩
  rw [hc] at this
  exact List.not_mem_nil w this

theorem length_duplicate_true (ws : List String) :
    length_duplicate ws true = (lengthKeys ws).flatMap (fun L => setList (lengthGroup ws L)) := by
  simp [length_duplicate]

theorem lengthKeys_length_duplicate (ws : List String) :
    lengthKeys (length_duplicate ws true) = lengthKeys ws := by
  rw [length_duplicate_true, lengthKeys, List.map_flatMap]
  refine dedupByAux_flatMap_const (lengthKeys ws) _ [] (setList_nodup _) (by simp) ?_ ?_
  · intro L hL
    obtain ⟨w, hw, hwl⟩ := (mem_lengthKeys ws L).mp hL
    have : w ∈ setList (lengthGroup ws L) :=
      (mem_setList _ _).mpr (List.mem_filter.mpr ⟨hw, by simp [hwl]⟩)
    intro hc
    have := List.mem_map_of_mem String.length this
    rw [hc] at this
    exact List.not_mem_nil _ this
  · intro L hL x hx
    obtain ⟨w, hw, hwx⟩ := List.mem_map.mp hx
    have := lengthGroup_all ws L w ((mem_setList _ _).mp hw)
    omega

theorem lengthGroup_length_duplicate (ws : List String) (L : Nat) (hL : L ∈ lengthKeys ws) :
    lengthGroup (length_duplicate ws true) L = setList (lengthGroup ws L) := by
  rw [length_duplicate_true, lengthGroup]
  refine filter_flatMap_single _ (lengthKeys ws) _ L (setList_nodup _) hL ?_ ?_
  · intro x hx
    have := lengthGroup_all ws L x ((mem_setList _ _).mp hx)
    simp [this]
  · intro L' hL' hne x hx
    have := lengthGroup_all ws L' x ((mem_setList _ _).mp hx)
    simp [this, hne]

theorem length_duplicate_idem (ws : List String) :
    length_duplicate (length_duplicate ws true) true = length_duplicate ws true := by
  conv_lhs => rw [length_duplicate_true, lengthKeys_length_duplicate]
  rw [flatMap_congr_mem _ _ (fun L => setList (setList (lengthGroup ws L)))
    (fun L hL => by rw [lengthGroup_length_duplicate ws L hL])]
  rw [flatMap_congr_mem _ _ (fun L => setList (lengthGroup ws L))
    (fun L _ => setList_idem _)]
  rw [← length_duplicate_true]

theorem pattern_duplicate_idem (ws : List String) (patternOpt : Option String) :
    pattern_duplicate (pattern_duplicate ws patternOpt) patternOpt =
      pattern_duplicate ws patternOpt := by
  cases hc : reCompile (patternOpt.getD "[a-zA-Z0-9]+") with
  | some f =>
    simp only [pattern_duplicate, hc]
    exact dedupByAux_idem _ ws
  | none =>
    simp only [pattern_duplicate, hc, exact_duplicate]
    exact dedupByAux_idem id ws

theorem pattern_duplicate_sublist (ws : List String) (patternOpt : Option String) :
    (pattern_duplicate ws patternOpt).Sublist ws := by
  cases hc : reCompile (patternOpt.getD "[a-zA-Z0-9]+") with
  | some f =>
    simp only [pattern_duplicate, hc]
    exact dedupByAux_sublist _ ws []
  | none =>
    simp only [pattern_duplicate, hc, exact_duplicate]
    exact dedupByAux_sublist id ws []

theorem pattern_duplicate_head (w : String) (ws : List String) (patternOpt : Option String) :
    w ∈ pattern_duplicate (w :: ws) patternOpt := by
  cases hc : reCompile (patternOpt.getD "[a-zA-Z0-9]+") with
  | some f =>
    simp only [pattern_duplicate, hc]
    simp [dedupByAux]
  | none =>
    simp only [pattern_duplicate, hc, exact_duplicate]
    simp [dedupByAux]

theorem length_duplicate_head (w : String) (ws : List String) :
    w ∈ length_duplicate (w :: ws) true := by
  rw [length_duplicate_true]
  refine List.mem_flatMap.mpr ⟨w.length, ?_, ?_⟩
  · rw [mem_lengthKeys]
    exact ⟨w, List.mem_cons_self _ _, rfl⟩
  · rw [mem_setList]
    exact List.mem_filter.mpr ⟨List.mem_cons_self _ _, by simp⟩

/-!
## Claims C6, C7, C8, C9, C10 (Deduplicator and date range)
-/

/-- C6: for every dedup strategy of the strategies dict (exact,
case_insensitive, similarity, length, pattern) and every list of
strings, applying the strategy twice returns the same list as applying
it once. -/
theorem C6_dedup_idempotent (s : Strategy) (ws : List String) :
    applyStrategy s (applyStrategy s ws) = applyStrategy s ws := by
  cases s with
  | exact => exact dedupByAux_idem id ws
  | case_insensitive => exact dedupByAux_idem String.toLower ws
  | similarity => exact relFilterAux_idem _ ws
  | length => exact length_duplicate_idem ws
  | pattern => exact pattern_duplicate_idem ws none

/-- C7 counterexample: the length strategy does not return a subsequence
of its input — on ["a", "bb", "b"] it returns ["a", "b", "bb"], moving
"bb" past "b" and so breaking the original relative order. -/
theorem C7_counterexample :
    applyStrategy Strategy.length ["a", "bb", "b"] = ["a", "b", "bb"] ∧
      ¬ (applyStrategy Strategy.length ["a", "bb", "b"]).Sublist ["a", "bb", "b"] := by
  exact ⟨by decide, by decide⟩

/-- C7 amended: for every dedup strategy other than the length strategy
(exact, case_insensitive, similarity, pattern) the output is a
subsequence of the input, keeping retained elements in original relative
order; the length strategy instead regroups words by length. -/
theorem C7_amended_dedup_sublist (s : Strategy) (ws : List String)
    (h : s ≠ Strategy.length) : (applyStrategy s ws).Sublist ws := by
  cases s with
  | exact => exact dedupByAux_sublist id ws []
  | case_insensitive => exact dedupByAux_sublist String.toLower ws []
  | similarity => exact relFilterAux_sublist _ ws []
  | length => exact absurd rfl h
  | pattern => exact pattern_duplicate_sublist ws none

/-- C7 amended witness at a concrete strategy and input. -/
theorem C7_amended_dedup_sublist_witness :
    Strategy.exact ≠ Strategy.length ∧
      (applyStrategy Strategy.exact ["a", "a", "b"]).Sublist ["a", "a", "b"] :=
  ⟨by decide, C7_amended_dedup_sublist Strategy.exact ["a", "a", "b"] (by decide)⟩

/-- C8 counterexample: the unterminated character class "[" does not
compile, yet pattern_duplicate returns the exact-dedup result instead of
surfacing an error to the caller (the re.error is caught and logged). -/
theorem C8_counterexample :
    reCompile "[" = none ∧
      pattern_duplicate ["a", "a", "b"] (some "[") = ["a", "b"] ∧
      pattern_duplicate ["a", "a", "b"] (some "[") = exact_duplicate ["a", "a", "b"] :=
  ⟨rfl, rfl, rfl⟩

/-- C8 amended: an invalid (non-compiling) pattern given to the Pattern
dedup strategy does not surface an error; the strategy silently falls
back to exact deduplication. -/
theorem C8_amended_invalid_pattern_falls_back (ws : List String) (patt : String)
    (h : reCompile patt = none) :
    pattern_duplicate ws (some patt) = exact_duplicate ws := by
  simp only [pattern_duplicate, Option.getD_some, h]

/-- C8 amended witness at a concrete invalid pattern. -/
theorem C8_amended_invalid_pattern_falls_back_witness :
    reCompile "[" = none ∧
      pattern_duplicate ["x", "x", "y"] (some "[") = exact_duplicate ["x", "x", "y"] :=
  ⟨rfl, C8_amended_invalid_pattern_falls_back ["x", "x", "y"] "[" rfl⟩

set_option maxRecDepth 40000

/-- C9 counterexample: the MMDD date range validates days against the
reference year 2000, which is a leap year, so "0229" is among the
outputs and there are 366 of them, not 365. -/
theorem C9_counterexample :
    (generate_date_range 2020 2024 "MMDD").length = 366 ∧
      "0229" ∈ generate_date_range 2020 2024 "MMDD" := by
  exact ⟨by decide, by decide⟩

/-- C9 amended: with date format MMDD, generate_date_range returns the
MMDD strings of the valid (month, day) pairs of the leap reference year
2000, for any start and end year: 366 outputs including "0229" and
excluding impossible days. -/
theorem C9_amended_mmdd_leap_year (start_year end_year : Int) :
    (generate_date_range start_year end_year "MMDD").length = 366 ∧
      "0229" ∈ generate_date_range start_year end_year "MMDD" ∧
      "0230" ∉ generate_date_range start_year end_year "MMDD" ∧
      "0431" ∉ generate_date_range start_year end_year "MMDD" := by
  have h : generate_date_range start_year end_year "MMDD" =
      generate_date_range 0 0 "MMDD" := rfl
  rw [h]
  exact ⟨by decide, by decide, by decide, by decide⟩

/-- C10: for every strategy of the strategies dict and every non-empty
input list, the first element of the input appears in the output. -/
theorem C10_first_element_retained (s : Strategy) (w : String) (ws : List String) :
    w ∈ applyStrategy s (w :: ws) := by
  cases s with
  | exact => simp [applyStrategy, exact_duplicate, dedupByAux]
  | case_insensitive => simp [applyStrategy, case_insensitive_duplicate, dedupByAux]
  | similarity => simp [applyStrategy, similarity_duplicate, relFilterAux]
  | length => exact length_duplicate_head w ws
  | pattern => exact pattern_duplicate_head w ws none

/-!
## Lemmas about the fuzzing generator
-/

theorem mem_setAdd [DecidableEq α] (y x : α) (l : List α) :
    y ∈ setAdd l x ↔ y ∈ l ∨ y = x := by
  by_cases h : x ∈ l
  · simp only [setAdd, if_pos h]
    constructor
    · exact Or.inl
    · rintro (hy | rfl)
      · exact hy
      · exact h
  · simp [setAdd, if_neg h]

theorem mem_setUnion [DecidableEq α] (y : α) (adds : List α) :
    ∀ l : List α, y ∈ setUnion l adds ↔ y ∈ l ∨ y ∈ adds := by
  induction adds with
  | nil => intro l; simp [setUnion]
  | cons x xs ih =>
    intro l
    show y ∈ setUnion (setAdd l x) xs ↔ _
    rw [ih (setAdd l x), mem_setAdd]
    constructor
    · rintro ((hy | rfl) | hy)
      · exact Or.inl hy
      · exact Or.inr (List.mem_cons_self _ _)
      · exact Or.inr (List.mem_cons_of_mem _ hy)
    · rintro (hy | hy)
      · exact Or.inl (Or.inl hy)
      · rcases List.mem_cons.mp hy with rfl | hy'
        · exact Or.inl (Or.inr rfl)
        · exact Or.inr hy'

theorem mem_ite_setUnion [DecidableEq α] (c : Prop) [Decidable c] (y : α) (r adds : List α)
    (h : y ∈ r) : y ∈ (if c then setUnion r adds else r) := by
  split
  · exact (mem_setUnion y adds r).mpr (Or.inl h)
  · exact h

theorem target_mem_fuzzPool (swapRng : Nat → Nat × Nat) (target : String)
    (config : FuzzConfig) : target ∈ fuzzPool swapRng target config := by
  unfold fuzzPool
  exact mem_ite_setUnion _ _ _ _ (mem_ite_setUnion _ _ _ _ (mem_ite_setUnion _ _ _ _
    (mem_ite_setUnion _ _ _ _ (List.mem_cons_self target []))))

theorem target_mem_capResults (sample : List String → Nat → List String) (target : String)
    (config : FuzzConfig) (r : List String) (h : target ∈ r) :
    target ∈ capResults sample target config r := by
  unfold capResults
  split
  · cases pySample sample (r.filter (fun x => x ≠ target)) (config.max_results - 1) with
    | some selected => exact List.mem_cons_self _ _
    | none => exact List.mem_cons_self _ _
  · exact h

theorem capResults_singleton (sample : List String → Nat → List String) (target : String)
    (config : FuzzConfig) : capResults sample target config [target] = [target] := by
  unfold capResults
  split
  · rename_i hlt
    have hfilter : [target].filter (fun x => x ≠ target) = [] := by simp
    rw [hfilter]
    have hk : config.max_results - 1 < 0 := by
      simp only [List.length_singleton] at hlt
      omega
    simp only [pySample, List.length_nil, Nat.cast_zero]
    rw [if_pos (Or.inl hk)]
  · rfl

theorem all_slash_of_strip_empty (t : String) (h : pyStripChar '/' t = "") :
    ∀ c ∈ t.data, c = '/' := by
  intro c hc
  have hlist : ((t.data.dropWhile (· = '/')).reverse.dropWhile (· = '/')).reverse = [] := by
    have := congrArg String.data h
    simpa [pyStripChar] using this
  have hrev : (t.data.dropWhile (· = '/')).reverse.dropWhile (· = '/') = [] := by
    simpa using congrArg List.reverse hlist
  have hdrop : ∀ x ∈ t.data.dropWhile (· = '/'), x = '/' := by
    intro x hx
    have := (List.dropWhile_eq_nil_iff.mp hrev) x (List.mem_reverse.mpr hx)
    simpa using this
  rw [← List.takeWhile_append_dropWhile (p := (· = '/')) (l := t.data)] at hc
  rcases List.mem_append.mp hc with h1 | h2
  · have := List.mem_takeWhile_imp h1
    simpa using this
  · exact hdrop c h2

theorem splitOnCharAux_ne_nil (c : Char) (l : List Char) :
    ∀ cur : List Char, splitOnCharAux c cur l ≠ [] := by
  induction l with
  | nil => intro cur; simp [splitOnCharAux]
  | cons x xs ih =>
    intro cur
    by_cases h : x = c
    · simp [splitOnCharAux, h]
    · simpa only [splitOnCharAux, if_neg h] using ih (x :: cur)

theorem pySplitChar_ne_nil (c : Char) (s : String) : pySplitChar c s ≠ [] := by
  rw [pySplitChar]
  intro hc
  exact splitOnCharAux_ne_nil c s.data [] (List.map_eq_nil_iff.mp hc)

theorem no_segments_all_slash (t : String) (h : extract_path_segments t = []) :
    ∀ c ∈ t.data, c = '/' := by
  refine all_slash_of_strip_empty t ?_
  by_contra hp
  rw [extract_path_segments] at h
  simp only [if_neg hp] at h
  exact pySplitChar_ne_nil '/' _ h

theorem isPrefixOf_false_of_all_slash (c : Char) (tl l : List Char)
    (hall : ∀ x ∈ l, x = '/') (hne : c ≠ '/') : (c :: tl).isPrefixOf l = false := by
  cases l with
  | nil => rfl
  | cons x xs =>
    have hx : x = '/' := hall x (List.mem_cons_self _ _)
    subst hx
    simp [List.isPrefixOf, hne]

theorem substrContains_false_of_all_slash (t : String) (hall : ∀ c ∈ t.data, c = '/')
    (c : Char) (tl : List Char) (hne : c ≠ '/') (sub : String) (hsub : sub.data = c :: tl) :
    substrContains t sub = false := by
  rw [substrContains, List.any_eq_false]
  intro i _
  rw [hsub]
  rw [isPrefixOf_false_of_all_slash c tl _ (fun x hx => hall x (List.mem_of_mem_drop hx)) hne]
  simp

/-!
## Claims C3, C4, C5 (fuzzing generator)
-/

/-- C3: for every seed (the claim restricts to nonempty seeds) and every
mutation configuration, and for all possible random draws, the seed
itself is among the generated fuzzing variants — also when the result
exceeds max_results and is truncated, since the cap keeps the target. -/
theorem C3_seed_included (sample : List String → Nat → List String)
    (swapRng : Nat → Nat × Nat) (target : String) (config : FuzzConfig)
    (h : target ≠ "") :
    target ∈ generate_fuzzing_variants sample swapRng target config :=
  target_mem_capResults sample target config _ (target_mem_fuzzPool swapRng target config)

/-- C3 witness at a concrete seed and configuration. -/
theorem C3_seed_included_witness :
    "/api/v2/users" ≠ "" ∧
      "/api/v2/users" ∈ generate_fuzzing_variants noSample noSwap "/api/v2/users"
        ⟨[("v2", ["v1"])], false, false, false, 1000⟩ :=
  ⟨by decide, C3_seed_included noSample noSwap "/api/v2/users" _ (by decide)⟩

/-- C4 counterexample: for the empty seed and a configuration enabling
path traversal, the result is not the singleton seed — the traversal
prefixes are still generated (34 results, among them "/../"). -/
theorem C4_counterexample :
    (generate_fuzzing_variants noSample noSwap ""
        ⟨[], false, false, true, 1000⟩).length = 34 ∧
      "/../" ∈ generate_fuzzing_variants noSample noSwap "" ⟨[], false, false, true, 1000⟩ := by
  exact ⟨by decide, by decide⟩

/-- C4 amended: for an empty seed or a seed with no path segments,
generate_fuzzing_variants returns the singleton seed for every
configuration in which path traversal is disabled (path traversal
prefixes payloads even onto a segmentless seed). -/
theorem C4_amended_no_segments_singleton (sample : List String → Nat → List String)
    (swapRng : Nat → Nat × Nat) (target : String) (config : FuzzConfig)
    (hseg : extract_path_segments target = [])
    (hpt : config.path_traversal = false) :
    generate_fuzzing_variants sample swapRng target config = [target] := by
  have hall : ∀ c ∈ target.data, c = '/' := no_segments_all_slash target hseg
  have h1 : replace_path_segments target config.replacement_rules = [target] := by
    simp [replace_path_segments, hseg]
  have h2 : swap_path_positions swapRng target = [target] := by
    simp [swap_path_positions, hseg]
  have h3 : substrContains target "http" = false :=
    substrContains_false_of_all_slash target hall 'h' ['t', 't', 'p'] (by decide) _ rfl
  have h4 : target.data.contains '?' = false := by
    rw [Bool.eq_false_iff]
    intro hc
    obtain ⟨x, hx, hbeq⟩ := List.contains_iff_exists_mem_beq.mp hc
    have hx' : x = '?' := (beq_iff_eq.mp hbeq).symm
    rw [hx'] at hx
    exact absurd (hall _ hx) (by decide)
  have hpool : fuzzPool swapRng target config = [target] := by
    simp only [fuzzPool, h1, h2, h3, h4, hpt]
    simp [setUnion, setAdd]
  rw [generate_fuzzing_variants, hpool]
  exact capResults_singleton sample target config

/-- C4 amended witness at the segmentless seed "/" and a traversal-free
configuration. -/
theorem C4_amended_no_segments_singleton_witness :
    extract_path_segments "/" = [] ∧
      generate_fuzzing_variants noSample noSwap "/"
          ⟨[("v2", ["v1"])], true, true, false, 1000⟩ = ["/"] :=
  ⟨by decide, C4_amended_no_segments_singleton noSample noSwap "/"
    ⟨[("v2", ["v1"])], true, true, false, 1000⟩ (by decide) rfl⟩

theorem add_path_traversal_shape (path : String) (max_depth : Nat) (out : String)
    (h : out ∈ add_path_traversal path max_depth) :
    out = path ∨ ∃ x : String, out = "/" ++ x := by
  simp only [add_path_traversal] at h
  have h' := (mem_setList _ _).mp h
  rcases List.mem_cons.mp h' with rfl | h2
  · exact Or.inl rfl
  · right
    obtain ⟨payload, _, hmem⟩ := List.mem_flatMap.mp h2
    rcases List.mem_append.mp hmem with hm | hm
    · obtain ⟨d, _, rfl⟩ := List.mem_map.mp hm
      exact ⟨_, rfl⟩
    · obtain ⟨i, _, rfl⟩ := List.mem_map.mp hm
      exact ⟨_, rfl⟩

/-- C5 counterexample: add_path_traversal treats an absolute URL seed as
an opaque path; the variant below is produced yet does not carry the
scheme-and-authority prefix of the seed, so the authority is not
preserved byte for byte with only the path portion mutated. -/
theorem C5_counterexample :
    "/../https://example.com/api/v2/users?id=1"
        ∈ add_path_traversal "https://example.com/api/v2/users?id=1" 3 ∧
      "https://example.com".data.isPrefixOf
          "/../https://example.com/api/v2/users?id=1".data = false ∧
      "/../https://example.com/api/v2/users?id=1" ≠
        "https://example.com/api/v2/users?id=1" := by
  exact ⟨by decide, by decide, by decide⟩

/-- C5 amended: every output of add_path_traversal other than the seed
itself begins with a slash; consequently, for the seed
"https://example.com/api/v2/users?id=1" and any depth, every output that
starts with "http" (only the seed itself does) starts with
"https://example.com". -/
theorem C5_amended_http_outputs_keep_authority (max_depth : Nat) (out : String)
    (hmem : out ∈ add_path_traversal "https://example.com/api/v2/users?id=1" max_depth)
    (hhttp : "http".data.isPrefixOf out.data = true) :
    "https://example.com".data.isPrefixOf out.data = true := by
  rcases add_path_traversal_shape _ _ out hmem with rfl | ⟨x, rfl⟩
  · decide
  · exfalso
    have hd : ("/" ++ x).data = '/' :: x.data := rfl
    have hfalse : "http".data.isPrefixOf ('/' :: x.data) = false := rfl
    rw [hd, hfalse] at hhttp
    exact Bool.false_ne_true hhttp

/-- C5 amended witness: the seed itself is an output starting with http,
and it keeps the authority prefix. -/
theorem C5_amended_http_outputs_keep_authority_witness :
    ("https://example.com/api/v2/users?id=1"
        ∈ add_path_traversal "https://example.com/api/v2/users?id=1" 3) ∧
      "https://example.com".data.isPrefixOf
          "https://example.com/api/v2/users?id=1".data = true :=
  ⟨by decide, C5_amended_http_outputs_keep_authority 3 _ (by decide) (by decide)⟩

/-!
## Lemmas about the combination generator
-/

theorem productLists_length (ls : List (List String)) :
    (productLists ls).length = (ls.map List.length).prod := by
  induction ls with
  | nil => rfl
  | cons l rest ih =>
    simp only [productLists, List.map_cons, List.prod_cons, ← ih]
    induction l with
    | nil => simp
    | cons x xs ihx =>
      simp only [List.flatMap_cons, List.length_append, List.length_map, List.length_cons, ihx]
      ring

theorem productLists_ne_nil (ls : List (List String)) (h : ∀ l ∈ ls, l ≠ []) :
    productLists ls ≠ [] := by
  have hpos : 0 < (productLists ls).length := by
    rw [productLists_length]
    refine List.prod_pos ?_
    intro n hn
    obtain ⟨l, hl, rfl⟩ := List.mem_map.mp hn
    exact List.length_pos.mpr (h l hl)
  exact List.ne_nil_of_length_pos hpos

theorem estimateGo_eq (db : List Int → List String) (config : CombinationConfig)
    (ks : List String) :
    ∀ acc : Int,
      (∀ k ∈ ks, ∀ ac, lookupArea config k = some ac → 0 < areaCountE db ac) →
      estimateGo db config ks acc =
        acc * (ks.filterMap (fun k => (lookupArea config k).map (areaCountE db))).prod := by
  induction ks with
  | nil => intro acc _; simp [estimateGo]
  | cons k rest ih =>
    intro acc hpos
    cases hl : lookupArea config k with
    | none =>
      simp only [estimateGo, hl, List.filterMap_cons, Option.map_none']
      exact ih acc (fun k' hk' => hpos k' (List.mem_cons_of_mem _ hk'))
    | some ac =>
      have hc := hpos k (List.mem_cons_self _ _) ac hl
      simp only [estimateGo, hl, if_pos hc, List.filterMap_cons, Option.map_some',
        List.prod_cons]
      rw [ih _ (fun k' hk' => hpos k' (List.mem_cons_of_mem _ hk'))]
      ring

theorem intRange_length (s e : Int) : (intRange s e).length = (e + 1 - s).toNat := by
  rw [intRange, List.length_map, List.length_range]

theorem areaCountE_of_resolveA (db : List Int → List String) (ac : AreaConf)
    (l : List String) (h : resolveA ac = some l) (hne : l ≠ []) :
    areaCountE db ac = (l.length : Int) := by
  cases ac with
  | custom d =>
    simp only [resolveA, Option.some.injEq] at h
    subst h; rfl
  | text d =>
    simp only [resolveA, Option.some.injEq] at h
    by_cases hd : d = ""
    · rw [if_pos hd] at h
      exact absurd h.symm hne
    · rw [if_neg hd] at h
      subst h
      simp [areaCountE, hd]
  | dictionary ids => simp [resolveA] at h
  | date sy ey f => simp [resolveA] at h
  | number s e f => simp [resolveA] at h

theorem areaCountE_of_resolveB (db : List Int → List String) (ac : AreaConf)
    (l : List String) (h : resolveB db ac = some l) (hne : l ≠ []) :
    areaCountE db ac = (l.length : Int) := by
  cases ac with
  | custom d =>
    simp only [resolveB, Option.some.injEq] at h
    subst h; rfl
  | dictionary ids =>
    simp only [resolveB, Option.some.injEq] at h
    subst h; rfl
  | text d => simp [resolveB] at h
  | date sy ey f => simp [resolveB] at h
  | number s e f => simp [resolveB] at h

theorem areaCountE_of_resolveC (db : List Int → List String) (ac : AreaConf)
    (l : List String) (h : resolveC db ac = some l) (hne : l ≠ []) :
    areaCountE db ac = (l.length : Int) := by
  cases ac with
  | custom d =>
    simp only [resolveC, Option.some.injEq] at h
    subst h; rfl
  | date sy ey f =>
    simp only [resolveC, Option.some.injEq] at h
    subst h; rfl
  | number s e f =>
    simp only [resolveC, Option.some.injEq] at h
    subst h
    have hlen : (generate_number_sequence s e f).length = (e + 1 - s).toNat := by
      simp [generate_number_sequence, intRange_length]
    have hpos : 0 < (e + 1 - s).toNat := by
      rcases Nat.eq_zero_or_pos (e + 1 - s).toNat with hz | hp
      · exfalso
        apply hne
        have : (generate_number_sequence s e f).length = 0 := by rw [hlen, hz]
        exact List.eq_nil_of_length_eq_zero this
      · exact hp
    rw [areaCountE, hlen]
    omega
  | text d => simp [resolveC] at h
  | dictionary ids => simp [resolveC] at h

theorem lookupArea_isSome_mem_abc (config : CombinationConfig) (k : String)
    (h : (lookupArea config k).isSome) : k ∈ (["a", "b", "c"] : List String) := by
  by_cases ha : k = "a"
  · simp [ha]
  · by_cases hb : k = "b"
    · simp [hb]
    · by_cases hc : k = "c"
      · simp [hc]
      · rw [lookupArea, if_neg ha, if_neg hb, if_neg hc] at h
        simp at h

theorem areaData_inv (db : List Int → List String) (config : CombinationConfig)
    (k : String) (l : List String) (h : areaData db config k = some l) :
    k ∈ config.areas_enabled ∧ ∃ ac, lookupArea config k = some ac ∧
      ((k = "a" ∧ resolveA ac = some l) ∨ (k = "b" ∧ resolveB db ac = some l) ∨
        (k = "c" ∧ resolveC db ac = some l)) := by
  by_cases ha : k = "a"
  · subst ha
    rw [areaData, if_pos rfl] at h
    by_cases he : "a" ∈ config.areas_enabled
    · rw [if_pos he] at h
      obtain ⟨ac, hac, hres⟩ := Option.bind_eq_some.mp h
      exact ⟨he, ac, by rw [lookupArea, if_pos rfl]; exact hac, Or.inl ⟨rfl, hres⟩⟩
    · rw [if_neg he] at h
      exact absurd h (by simp)
  · by_cases hb : k = "b"
    · subst hb
      rw [areaData, if_neg (by decide), if_pos rfl] at h
      by_cases he : "b" ∈ config.areas_enabled
      · rw [if_pos he] at h
        obtain ⟨ac, hac, hres⟩ := Option.bind_eq_some.mp h
        exact ⟨he, ac, by rw [lookupArea, if_neg (by decide), if_pos rfl]; exact hac,
          Or.inr (Or.inl ⟨rfl, hres⟩)⟩
      · rw [if_neg he] at h
        exact absurd h (by simp)
    · by_cases hc : k = "c"
      · subst hc
        rw [areaData, if_neg (by decide), if_neg (by decide), if_pos rfl] at h
        by_cases he : "c" ∈ config.areas_enabled
        · rw [if_pos he] at h
          obtain ⟨ac, hac, hres⟩ := Option.bind_eq_some.mp h
          exact ⟨he, ac,
            by rw [lookupArea, if_neg (by decide), if_neg (by decide), if_pos rfl]; exact hac,
            Or.inr (Or.inr ⟨rfl, hres⟩)⟩
        · rw [if_neg he] at h
          exact absurd h (by simp)
      · rw [areaData, if_neg ha, if_neg hb, if_neg hc] at h
        exact absurd h (by simp)

theorem areaCountE_of_areaData (db : List Int → List String) (config : CombinationConfig)
    (k : String) (l : List String) (h : areaData db config k = some l) (hne : l ≠ []) :
    ∃ ac, lookupArea config k = some ac ∧ areaCountE db ac = (l.length : Int) := by
  obtain ⟨-, ac, hac, hres⟩ := areaData_inv db config k l h
  refine ⟨ac, hac, ?_⟩
  rcases hres with ⟨-, hr⟩ | ⟨-, hr⟩ | ⟨-, hr⟩
  · exact areaCountE_of_resolveA db ac l hr hne
  · exact areaCountE_of_resolveB db ac l hr hne
  · exact areaCountE_of_resolveC db ac l hr hne

theorem filterMap_congr_mem_opt (l : List α) (f g : α → Option β)
    (h : ∀ a ∈ l, f a = g a) : l.filterMap f = l.filterMap g := by
  induction l with
  | nil => rfl
  | cons x xs ih =>
    simp only [List.filterMap_cons]
    rw [h x (List.mem_cons_self _ _), ih (fun a ha => h a (List.mem_cons_of_mem _ ha))]

theorem filterMap_eq_filterMap_filter_isSome (l : List α) (f : α → Option β) :
    l.filterMap f = (l.filter (fun a => (f a).isSome)).filterMap f := by
  induction l with
  | nil => rfl
  | cons x xs ih =>
    cases hx : f x with
    | none => simp [List.filterMap_cons, List.filter_cons, hx, ih]
    | some b => simp [List.filterMap_cons, List.filter_cons, hx, ih]

theorem filterMap_length_prod_eq (db : List Int → List String) (ks : List α)
    (f : α → Option (List String)) (g : α → Option Int)
    (h : ∀ k ∈ ks, (f k = none ∧ g k = none) ∨
      ∃ l, f k = some l ∧ g k = some ((l.length : Int))) :
    ((ks.filterMap f).map (fun l => (l.length : Int))).prod = (ks.filterMap g).prod := by
  induction ks with
  | nil => rfl
  | cons k rest ih =>
    have hrest := ih (fun k' hk' => h k' (List.mem_cons_of_mem _ hk'))
    rcases h k (List.mem_cons_self _ _) with ⟨hf, hg⟩ | ⟨l, hf, hg⟩
    · simp only [List.filterMap_cons, hf, hg]
      exact hrest
    · simp only [List.filterMap_cons, hf, hg, List.map_cons, List.prod_cons, hrest]

/-!
## Claims C1 and C2 (combination generator)
-/

/-- C2 counterexample: with area a enabled but resolving to the empty
list and area b enabled resolving to ["x"], the generator does not yield
the empty product — it drops the empty area and yields "x". -/
theorem C2_counterexample :
    areaData emptyStore
        ⟨some (.custom ""), some (.custom "x"), none, "", ["a", "b"]⟩ "a" = some [] ∧
      generate_combinations emptyStore
        ⟨some (.custom ""), some (.custom "x"), none, "", ["a", "b"]⟩ = ["x"] := by
  exact ⟨by decide, by decide⟩

/-- C2 amended: an enabled area that resolves to the empty list is
dropped from the enumeration rather than nullifying it: whenever at
least one enabled area resolves to a non-empty list (and no date area
aborts generation), generate_combinations yields at least one string,
regardless of other areas resolving empty. -/
theorem C2_amended_empty_area_dropped (db : List Int → List String)
    (config : CombinationConfig) (hr : configRaises config = false)
    (k : String) (l : List String) (hk : areaData db config k = some l) (hl : l ≠ []) :
    generate_combinations db config ≠ [] := by
  simp only [generate_combinations, hr, Bool.false_eq_true, if_false]
  have hkabc : k ∈ (["a", "b", "c"] : List String) := by
    obtain ⟨-, ac, hac, -⟩ := areaData_inv db config k l hk
    exact lookupArea_isSome_mem_abc config k (by rw [hac]; rfl)
  have hmem : l ∈ (["a", "b", "c"] : List String).filterMap (areaData db config) :=
    List.mem_filterMap.mpr ⟨k, hkabc, hk⟩
  have hvalidmem :
      l ∈ ((["a", "b", "c"] : List String).filterMap (areaData db config)).filter
        (fun x => x ≠ []) :=
    List.mem_filter.mpr ⟨hmem, by simpa using hl⟩
  rw [if_neg (List.ne_nil_of_mem hvalidmem)]
  intro hc
  have hprod :
      productLists (((["a", "b", "c"] : List String).filterMap (areaData db config)).filter
        (fun x => x ≠ [])) = [] := List.map_eq_nil_iff.mp hc
  refine productLists_ne_nil _ ?_ hprod
  intro l' hl'
  have := (List.mem_filter.mp hl').2
  simpa using this

/-- C2 amended witness at the counterexample configuration: area b
resolves to ["x"], so the generator yields at least one string even
though area a resolves empty. -/
theorem C2_amended_empty_area_dropped_witness :
    configRaises ⟨some (.custom ""), some (.custom "x"), none, "", ["a", "b"]⟩ = false ∧
      areaData emptyStore
        ⟨some (.custom ""), some (.custom "x"), none, "", ["a", "b"]⟩ "b" = some ["x"] ∧
      generate_combinations emptyStore
        ⟨some (.custom ""), some (.custom "x"), none, "", ["a", "b"]⟩ ≠ [] :=
  ⟨by decide, by decide,
    C2_amended_empty_area_dropped emptyStore _ (by decide) "b" ["x"] (by decide) (by decide)⟩

/-- C1 counterexample: with area a enabled but resolving empty and area
b resolving to ["x"], the generator yields one string while the estimate
and the product of resolved lengths are both 0. -/
theorem C1_counterexample :
    ((generate_combinations emptyStore
        ⟨some (.custom ""), some (.custom "x"), none, "", ["a", "b"]⟩).length : Int) = 1 ∧
      estimate_combination_count emptyStore
        ⟨some (.custom ""), some (.custom "x"), none, "", ["a", "b"]⟩ = 0 ∧
      (((["a", "b", "c"] : List String).filterMap
          (areaData emptyStore
            ⟨some (.custom ""), some (.custom "x"), none, "", ["a", "b"]⟩)).map
        (fun l => (l.length : Int))).prod = 0 := by
  exact ⟨by decide, by decide, by decide⟩

/-- C1 amended: for every configuration with duplicate-free enabled
keys, in which every enabled and present area has a type handled by its
slot and resolves to a non-empty list, at least one enabled area is
present, and no date area aborts generation, the number of generated
strings equals the estimate and both equal the product of the lengths of
the resolved lists of the enabled areas. -/
theorem C1_amended_product_law (db : List Int → List String) (config : CombinationConfig)
    (hnd : config.areas_enabled.Nodup)
    (hgood : ∀ k ∈ (["a", "b", "c"] : List String), k ∈ config.areas_enabled →
      (lookupArea config k).isSome →
        (areaData db config k).isSome ∧ areaData db config k ≠ some [])
    (hsome : ∃ k ∈ (["a", "b", "c"] : List String), (areaData db config k).isSome)
    (hr1 : configRaises config = false) (hr2 : estimateRaises config = false) :
    ((generate_combinations db config).length : Int) =
        estimate_combination_count db config ∧
      estimate_combination_count db config =
        (((["a", "b", "c"] : List String).filterMap (areaData db config)).map
          (fun l => (l.length : Int))).prod := by
  have hall_ne : ∀ l ∈ (["a", "b", "c"] : List String).filterMap (areaData db config),
      l ≠ [] := by
    intro l hl
    obtain ⟨k, hk, hkd⟩ := List.mem_filterMap.mp hl
    obtain ⟨hen, ac, hac, -⟩ := areaData_inv db config k l hkd
    have hns := (hgood k hk hen (by rw [hac]; rfl)).2
    intro hc
    rw [hc] at hkd
    exact hns hkd
  have hfilter : ((["a", "b", "c"] : List String).filterMap (areaData db config)).filter
      (fun x => x ≠ []) = (["a", "b", "c"] : List String).filterMap (areaData db config) :=
    List.filter_eq_self.mpr (fun l hl => by simpa using hall_ne l hl)
  have hdne : (["a", "b", "c"] : List String).filterMap (areaData db config) ≠ [] := by
    obtain ⟨k, hk, hks⟩ := hsome
    obtain ⟨l, hl⟩ := Option.isSome_iff_exists.mp hks
    exact List.ne_nil_of_mem (List.mem_filterMap.mpr ⟨k, hk, hl⟩)
  have hgen : (generate_combinations db config).length =
      (((["a", "b", "c"] : List String).filterMap (areaData db config)).map
        List.length).prod := by
    simp only [generate_combinations, hr1, Bool.false_eq_true, if_false]
    rw [hfilter, if_neg hdne, List.length_map, productLists_length]
  have hpos : ∀ k ∈ config.areas_enabled, ∀ ac, lookupArea config k = some ac →
      0 < areaCountE db ac := by
    intro k hk ac hac
    have hkabc : k ∈ (["a", "b", "c"] : List String) :=
      lookupArea_isSome_mem_abc config k (by rw [hac]; rfl)
    obtain ⟨hs, hns⟩ := hgood k hkabc hk (by rw [hac]; rfl)
    obtain ⟨l, hl⟩ := Option.isSome_iff_exists.mp hs
    have hne : l ≠ [] := fun hc => hns (hc ▸ hl)
    obtain ⟨ac', hac', hcount⟩ := areaCountE_of_areaData db config k l hl hne
    have hacac : ac' = ac := by
      rw [hac] at hac'
      exact ((Option.some.injEq _ _).mp hac').symm
    rw [← hacac, hcount]
    exact Int.natCast_pos.mpr (List.length_pos.mpr hne)
  have hest : estimate_combination_count db config =
      (config.areas_enabled.filterMap
        (fun k => (lookupArea config k).map (areaCountE db))).prod := by
    rw [estimate_combination_count, if_neg (by simp [hr2])]
    rw [estimateGo_eq db config _ 1 hpos, one_mul]
  have hcongr : config.areas_enabled.filterMap
      (fun k => (lookupArea config k).map (areaCountE db)) =
      config.areas_enabled.filterMap (ecount db config) :=
    filterMap_congr_mem_opt _ _ _ (fun k hk => by rw [ecount, if_pos hk])
  have habcnd : ((["a", "b", "c"] : List String)).Nodup := by decide
  have hperm : (config.areas_enabled.filter (fun k => (ecount db config k).isSome)).Perm
      ((["a", "b", "c"] : List String).filter (fun k => (ecount db config k).isSome)) := by
    refine (List.perm_ext_iff_of_nodup (hnd.filter _) (habcnd.filter _)).mpr ?_
    intro k
    simp only [List.mem_filter]
    constructor
    · rintro ⟨hk, hs⟩
      refine ⟨?_, hs⟩
      have hls : (lookupArea config k).isSome := by
        rw [ecount, if_pos hk, Option.isSome_map'] at hs
        exact hs
      exact lookupArea_isSome_mem_abc config k hls
    · rintro ⟨hk, hs⟩
      have hen : k ∈ config.areas_enabled := by
        by_contra hc
        rw [ecount, if_neg hc] at hs
        simp at hs
      exact ⟨hen, hs⟩
  have hprodperm : (config.areas_enabled.filterMap (ecount db config)).prod =
      ((["a", "b", "c"] : List String).filterMap (ecount db config)).prod := by
    rw [filterMap_eq_filterMap_filter_isSome config.areas_enabled (ecount db config),
      filterMap_eq_filterMap_filter_isSome (["a", "b", "c"] : List String)
        (ecount db config)]
    exact (List.Perm.filterMap _ hperm).prod_eq
  have hbridge : (((["a", "b", "c"] : List String).filterMap (areaData db config)).map
      (fun l => (l.length : Int))).prod =
      ((["a", "b", "c"] : List String).filterMap (ecount db config)).prod := by
    refine filterMap_length_prod_eq db _ _ _ ?_
    intro k hk
    cases hkd : areaData db config k with
    | some l =>
      right
      obtain ⟨hen, ac, hac, -⟩ := areaData_inv db config k l hkd
      have hne : l ≠ [] := hall_ne l (List.mem_filterMap.mpr ⟨k, hk, hkd⟩)
      obtain ⟨ac', hac', hcount⟩ := areaCountE_of_areaData db config k l hkd hne
      refine ⟨l, rfl, ?_⟩
      rw [ecount, if_pos hen, hac', Option.map_some', hcount]
    | none =>
      left
      refine ⟨rfl, ?_⟩
      by_cases hen : k ∈ config.areas_enabled
      · rw [ecount, if_pos hen]
        cases hac : lookupArea config k with
        | none => rfl
        | some ac =>
          have hs := (hgood k hk hen (by rw [hac]; rfl)).1
          rw [hkd] at hs
          simp at hs
      · rw [ecount, if_neg hen]
  have hcast : (((((["a", "b", "c"] : List String).filterMap (areaData db config)).map
      List.length).prod : Nat) : Int) =
      (((["a", "b", "c"] : List String).filterMap (areaData db config)).map
        (fun l => (l.length : Int))).prod := by
    rw [Nat.cast_list_prod, List.map_map]
    rfl
  have hB : estimate_combination_count db config =
      (((["a", "b", "c"] : List String).filterMap (areaData db config)).map
        (fun l => (l.length : Int))).prod := by
    rw [hest, hcongr, hprodperm, ← hbridge]
  refine ⟨?_, hB⟩
  rw [hgen, hcast, hB]

/-- C1 amended witness at a concrete two-area configuration (two by two
literal areas joined with an underscore: 4 = 2 * 2). -/
theorem C1_amended_product_law_witness :
    ((generate_combinations emptyStore
        ⟨some (.custom "admin\nuser"), some (.custom "login,panel"), none, "_",
          ["a", "b"]⟩).length : Int) =
      estimate_combination_count emptyStore
        ⟨some (.custom "admin\nuser"), some (.custom "login,panel"), none, "_",
          ["a", "b"]⟩ ∧
    estimate_combination_count emptyStore
        ⟨some (.custom "admin\nuser"), some (.custom "login,panel"), none, "_",
          ["a", "b"]⟩ =
      (((["a", "b", "c"] : List String).filterMap
          (areaData emptyStore
            ⟨some (.custom "admin\nuser"), some (.custom "login,panel"), none, "_",
              ["a", "b"]⟩)).map (fun l => (l.length : Int))).prod :=
  C1_amended_product_law emptyStore _ (by decide) (by decide) (by decide) (by decide)
    (by decide)

end GraffitiMap
